import Mathlib

/-!
Verification of the binomial-tree option pricing core (`src/binomial.js`).

The pricing engine is a pure function pipeline: CRR parameter derivation,
stock-lattice construction, backward induction (European or American),
finite-difference Greeks, and early-exercise collection.  The embedding is
parametric in a linearly ordered field `α`; the two transcendental
primitives used by the code (`Math.exp`, `Math.sqrt`) are abstracted into
an `Analytic` record and instantiated with `Real.exp` / `Real.sqrt` in the
theorems that depend on their analytic properties.
-/

namespace Binomial

/-- The transcendental primitives the code calls (`Math.exp`, `Math.sqrt`). -/
structure Analytic (α : Type) where
  exp : α → α
  sqrt : α → α

/-- The record returned by `calculateCRRParams`. -/
structure CRRParams (α : Type) where
  dt : α
  u : α
  d : α
  p : α
  discount : α

/-- The parameter object consumed by `priceBinomialTree` (see `getParams`). -/
structure MarketParams (α : Type) where
  S : α
  K : α
  r : α
  sigma : α
  T : α
  N : ℕ
  isCall : Bool
  isAmerican : Bool
  isCustomUD : Bool
  customU : α
  customD : α

/-- Embedding of `calculateCRRParams(S, K, r, sigma, T, N, customU, customD)`:
`dt = T/N`; if both custom factors are supplied they are used as `u`, `d`,
otherwise `u = exp(sigma*sqrt(dt))` and `d = 1/u`; then
`p = (exp(r*dt) - d)/(u - d)` and `discount = exp(-r*dt)`.
The optional JavaScript arguments become `Option` values. -/
def calculateCRRParams {α : Type} [LinearOrderedField α] (A : Analytic α)
    (S K r sigma T : α) (N : ℕ) (customU customD : Option α) : CRRParams α :=
  let dt : α := T / (N : α)
  let ud : α × α :=
    match customU, customD with
    | some cu, some cd => (cu, cd)
    | _, _ => (A.exp (sigma * A.sqrt dt), 1 / A.exp (sigma * A.sqrt dt))
  { dt := dt
    u := ud.1
    d := ud.2
    p := (A.exp (r * dt) - ud.2) / (ud.1 - ud.2)
    discount := A.exp (-(r * dt)) }

/-- Embedding of `buildStockTree(S, u, d, N)`: jagged array with `tree[i][j] = S * u^j * d^(i-j)`
for `0 ≤ j ≤ i ≤ N`, computed directly from the closed formula. -/
def buildStockTree {α : Type} [LinearOrderedField α] (S u d : α) (N : ℕ) :
    List (List α) :=
  (List.range (N + 1)).map fun i => (List.range (i + 1)).map fun j =>
    S * u ^ j * d ^ (i - j)

/-- Embedding of `payoff(S, K, isCall)`: `max(S-K, 0)` for a call, `max(K-S, 0)` for a put. -/
def payoff {α : Type} [LinearOrderedField α] (S K : α) (isCall : Bool) : α :=
  if isCall then max (S - K) 0 else max (K - S) 0

/-- Reading entry `(i, j)` of a jagged array, with an out-of-range default. -/
def tget {β : Type} (t : List (List β)) (dflt : β) (i j : ℕ) : β :=
  (t.getD i []).getD j dflt

/-- Option value at the node reached `m` steps before maturity in column `j`
under the European backward induction of `priceEuropean` (so the node is
`(N - m, j)` of the lattice): payoff of `stk N j` at maturity, and
`discount * (p * up + (1-p) * down)` one step earlier.  `stk` abstracts the
`stockTree` array lookup. -/
def euroValAux {α : Type} [LinearOrderedField α] (stk : ℕ → ℕ → α)
    (K p discount : α) (isCall : Bool) (N : ℕ) : ℕ → ℕ → α
  | 0, j => payoff (stk N j) K isCall
  | m + 1, j =>
      discount * (p * euroValAux stk K p discount isCall N m (j + 1)
        + (1 - p) * euroValAux stk K p discount isCall N m j)

/-- Option value at node `(N - m, j)` under the American backward induction of
`priceAmerican`: at an interior node the exercise value
`payoff(stockTree[i][j], K, isCall)` replaces the hold value exactly when it
is strictly greater. -/
def amerValAux {α : Type} [LinearOrderedField α] (stk : ℕ → ℕ → α)
    (K p discount : α) (isCall : Bool) (N : ℕ) : ℕ → ℕ → α
  | 0, j => payoff (stk N j) K isCall
  | m + 1, j =>
      let holdValue := discount * (p * amerValAux stk K p discount isCall N m (j + 1)
        + (1 - p) * amerValAux stk K p discount isCall N m j)
      let exerciseValue := payoff (stk (N - (m + 1)) j) K isCall
      if exerciseValue > holdValue then exerciseValue else holdValue

/-- Early-exercise flag at node `(N - m, j)` set by `priceAmerican`:
`false` at maturity, and `exerciseValue > holdValue` at an interior node. -/
def amerFlagAux {α : Type} [LinearOrderedField α] (stk : ℕ → ℕ → α)
    (K p discount : α) (isCall : Bool) (N : ℕ) : ℕ → ℕ → Bool
  | 0, _ => false
  | m + 1, j =>
      let holdValue := discount * (p * amerValAux stk K p discount isCall N m (j + 1)
        + (1 - p) * amerValAux stk K p discount isCall N m j)
      let exerciseValue := payoff (stk (N - (m + 1)) j) K isCall
      decide (exerciseValue > holdValue)

/-- The `{ optionTree, earlyExercise }` record returned by the two pricing
functions. -/
structure PriceOut (α : Type) where
  optionTree : List (List α)
  earlyExercise : List (List Bool)

/-- Embedding of `priceEuropean(stockTree, K, p, discount, isCall, N)`: the loop fills row
`N` with terminal payoffs and every earlier row from the completed next row,
which is exactly the triangular table of `euroValAux`; every flag written is
`false`. -/
def priceEuropean {α : Type} [LinearOrderedField α] (stockTree : List (List α))
    (K p discount : α) (isCall : Bool) (N : ℕ) : PriceOut α :=
  { optionTree := (List.range (N + 1)).map fun i => (List.range (i + 1)).map fun j =>
      euroValAux (tget stockTree 0) K p discount isCall N (N - i) j
    earlyExercise := (List.range (N + 1)).map fun i => (List.range (i + 1)).map fun _ =>
      false }

/-- Embedding of `priceAmerican(stockTree, K, p, discount, isCall, N)`: same loop structure
as `priceEuropean` with the early-exercise comparison at interior nodes. -/
def priceAmerican {α : Type} [LinearOrderedField α] (stockTree : List (List α))
    (K p discount : α) (isCall : Bool) (N : ℕ) : PriceOut α :=
  { optionTree := (List.range (N + 1)).map fun i => (List.range (i + 1)).map fun j =>
      amerValAux (tget stockTree 0) K p discount isCall N (N - i) j
    earlyExercise := (List.range (N + 1)).map fun i => (List.range (i + 1)).map fun j =>
      amerFlagAux (tget stockTree 0) K p discount isCall N (N - i) j }

/-- Embedding of `calculateDelta(stockTree, optionTree)`: guarded two-point finite
difference on the step-1 nodes; returns `0` when the tree has fewer than two
levels. -/
def calculateDelta {α : Type} [LinearOrderedField α]
    (stockTree optionTree : List (List α)) : α :=
  if stockTree.length < 2 then 0
  else
    (tget optionTree 0 1 1 - tget optionTree 0 1 0)
      / (tget stockTree 0 1 1 - tget stockTree 0 1 0)

/-- Embedding of `calculateGamma(stockTree, optionTree)`: guarded second difference on the
step-2 nodes; returns `0` when the tree has fewer than three levels. -/
def calculateGamma {α : Type} [LinearOrderedField α]
    (stockTree optionTree : List (List α)) : α :=
  if stockTree.length < 3 then 0
  else
    let Suu := tget stockTree 0 2 2
    let Sud := tget stockTree 0 2 1
    let Sdd := tget stockTree 0 2 0
    let Vuu := tget optionTree 0 2 2
    let Vud := tget optionTree 0 2 1
    let Vdd := tget optionTree 0 2 0
    let deltaUp := (Vuu - Vud) / (Suu - Sud)
    let deltaDown := (Vud - Vdd) / (Sud - Sdd)
    let h := (0.5 : α) * (Suu - Sdd)
    (deltaUp - deltaDown) / h

/-- The `{step, state, stockPrice, optionValue}` record pushed by
`getEarlyExerciseNodes`. -/
structure EarlyExerciseRecord (α : Type) where
  step : ℕ
  state : ℕ
  stockPrice : α
  optionValue : α
  deriving DecidableEq

/-- Embedding of `getEarlyExerciseNodes(stockTree, optionTree, earlyExercise, N)`: scans
steps `0..N-1` in order and states `0..i` in order, pushing one record per
flagged node. -/
def getEarlyExerciseNodes {α : Type} [LinearOrderedField α]
    (stockTree optionTree : List (List α)) (earlyExercise : List (List Bool))
    (N : ℕ) : List (EarlyExerciseRecord α) :=
  ((List.range N).map fun i =>
    (((List.range (i + 1)).filter fun j => tget earlyExercise false i j).map fun j =>
      { step := i
        state := j
        stockPrice := tget stockTree 0 i j
        optionValue := tget optionTree 0 i j })).flatten

/-- The full result record returned by `priceBinomialTree`. -/
structure PricingResult (α : Type) where
  crr : CRRParams α
  stockTree : List (List α)
  optionTree : List (List α)
  earlyExercise : List (List Bool)
  price : α
  delta : α
  gamma : α
  earlyExerciseNodes : List (EarlyExerciseRecord α)

/-- Embedding of `priceBinomialTree(params)`: derive CRR parameters (passing the custom
factors only when `isCustomUD`), build the stock tree, run the European or
American induction, compute the Greeks, collect early-exercise nodes (only
for American contracts), and return the aggregate with
`price = optionTree[0][0]`. -/
def priceBinomialTree {α : Type} [LinearOrderedField α] (A : Analytic α)
    (params : MarketParams α) : PricingResult α :=
  let crr :=
    if params.isCustomUD then
      calculateCRRParams A params.S params.K params.r params.sigma params.T params.N
        (some params.customU) (some params.customD)
    else
      calculateCRRParams A params.S params.K params.r params.sigma params.T params.N
        none none
  let stockTree := buildStockTree params.S crr.u crr.d params.N
  let priced :=
    if params.isAmerican then
      priceAmerican stockTree params.K crr.p crr.discount params.isCall params.N
    else
      priceEuropean stockTree params.K crr.p crr.discount params.isCall params.N
  let delta := calculateDelta stockTree priced.optionTree
  let gamma := calculateGamma stockTree priced.optionTree
  let earlyExerciseNodes :=
    if params.isAmerican then
      getEarlyExerciseNodes stockTree priced.optionTree priced.earlyExercise params.N
    else []
  { crr := crr
    stockTree := stockTree
    optionTree := priced.optionTree
    earlyExercise := priced.earlyExercise
    price := tget priced.optionTree 0 0 0
    delta := delta
    gamma := gamma
    earlyExerciseNodes := earlyExerciseNodes }

/-! ### Helper lemmas about jagged triangular tables -/

/-- Reading a mapped range at an in-range index. -/
theorem getD_map_range {β : Type} (g : ℕ → β) (dflt : β) (n i : ℕ) (h : i < n) :
    ((List.range n).map g).getD i dflt = g i := by
  rw [List.getD_eq_getElem?_getD, List.getElem?_map, List.getElem?_range h]
  rfl

/-- Reading an in-range entry of a triangular table built from a function. -/
theorem tget_triangle {β : Type} (f : ℕ → ℕ → β) (dflt : β) (N i j : ℕ)
    (hi : i ≤ N) (hj : j ≤ i) :
    tget ((List.range (N + 1)).map fun a => (List.range (a + 1)).map (f a)) dflt i j
      = f i j := by
  unfold tget
  rw [getD_map_range _ _ _ _ (Nat.lt_succ_of_le hi),
    getD_map_range _ _ _ _ (Nat.lt_succ_of_le hj)]

/-- The stock lattice stores the closed-form price at every in-range node. -/
theorem tget_buildStockTree {α : Type} [LinearOrderedField α] (S u d : α)
    (N i j : ℕ) (hi : i ≤ N) (hj : j ≤ i) :
    tget (buildStockTree S u d N) 0 i j = S * u ^ j * d ^ (i - j) :=
  tget_triangle (fun a b => S * u ^ b * d ^ (a - b)) 0 N i j hi hj

/-- In-range entries of the European option lattice are `euroValAux` values. -/
theorem tget_priceEuropean {α : Type} [LinearOrderedField α]
    (stockTree : List (List α)) (K p discount : α) (isCall : Bool)
    (N i j : ℕ) (hi : i ≤ N) (hj : j ≤ i) :
    tget (priceEuropean stockTree K p discount isCall N).optionTree 0 i j
      = euroValAux (tget stockTree 0) K p discount isCall N (N - i) j :=
  tget_triangle (fun a b => euroValAux (tget stockTree 0) K p discount isCall N (N - a) b)
    0 N i j hi hj

/-- In-range entries of the American option lattice are `amerValAux` values. -/
theorem tget_priceAmerican {α : Type} [LinearOrderedField α]
    (stockTree : List (List α)) (K p discount : α) (isCall : Bool)
    (N i j : ℕ) (hi : i ≤ N) (hj : j ≤ i) :
    tget (priceAmerican stockTree K p discount isCall N).optionTree 0 i j
      = amerValAux (tget stockTree 0) K p discount isCall N (N - i) j :=
  tget_triangle (fun a b => amerValAux (tget stockTree 0) K p discount isCall N (N - a) b)
    0 N i j hi hj

/-- In-range entries of the American flag lattice are `amerFlagAux` values. -/
theorem tget_priceAmericanFlag {α : Type} [LinearOrderedField α]
    (stockTree : List (List α)) (K p discount : α) (isCall : Bool)
    (N i j : ℕ) (hi : i ≤ N) (hj : j ≤ i) :
    tget (priceAmerican stockTree K p discount isCall N).earlyExercise false i j
      = amerFlagAux (tget stockTree 0) K p discount isCall N (N - i) j :=
  tget_triangle (fun a b => amerFlagAux (tget stockTree 0) K p discount isCall N (N - a) b)
    false N i j hi hj

/-- Twice the total node count of the triangular lattice. -/
theorem two_mul_sum_range_succ (n : ℕ) :
    2 * (((List.range (n + 1)).map fun i => i + 1).sum) = (n + 1) * (n + 2) := by
  induction n with
  | zero => rfl
  | succ k ih =>
      rw [List.range_succ, List.map_append, List.sum_append, Nat.mul_add, ih]
      simp
      ring

/-- Claim C5: for every `S`, `u`, `d` and `N ≥ 1` the stock lattice has `N+1`
levels, level `i` has exactly `i+1` nodes, the node `(i, j)` stores the
directly computed price `S * u^j * d^(i-j)`, and the total node count is
`(N+1)(N+2)/2`. -/
theorem stockTreeShape {α : Type} [LinearOrderedField α] (S u d : α) (N i j : ℕ)
    (hN : 1 ≤ N) (hi : i ≤ N) (hj : j ≤ i) :
    (buildStockTree S u d N).length = N + 1
    ∧ ((buildStockTree S u d N).getD i []).length = i + 1
    ∧ tget (buildStockTree S u d N) 0 i j = S * u ^ j * d ^ (i - j)
    ∧ ((buildStockTree S u d N).map List.length).sum = (N + 1) * (N + 2) / 2 := by
  refine ⟨by simp [buildStockTree], ?_, tget_buildStockTree S u d N i j hi hj, ?_⟩
  · rw [buildStockTree, getD_map_range _ _ _ _ (Nat.lt_succ_of_le hi)]
    simp
  · have h2 := two_mul_sum_range_succ N
    have hm : ((buildStockTree S u d N).map List.length).sum
        = ((List.range (N + 1)).map fun i => i + 1).sum := by
      simp only [buildStockTree, List.map_map, Function.comp_def, List.length_map,
        List.length_range]
    rw [hm]
    exact (Nat.div_eq_of_eq_mul_left (by norm_num) (by rw [← h2]; ring)).symm

/-- Witness instance of `stockTreeShape`, instantiated at a concrete lattice. -/
theorem stockTreeShape_check :
    ((1 : ℕ) ≤ 2 ∧ 1 ≤ 2 ∧ 1 ≤ 1)
    ∧ tget (buildStockTree (100 : ℚ) 2 (1 / 2) 2) 0 1 1 = 100 * 2 ^ 1 * (1 / 2) ^ 0
    ∧ ((buildStockTree (100 : ℚ) 2 (1 / 2) 2).map List.length).sum = 3 * 4 / 2 :=
  ⟨⟨by decide, by decide, by decide⟩,
    (stockTreeShape (100 : ℚ) 2 (1 / 2) 2 1 1 (by decide) (by decide) (by decide)).2.2.1,
    (stockTreeShape (100 : ℚ) 2 (1 / 2) 2 1 1 (by decide) (by decide) (by decide)).2.2.2⟩

/-- Every entry of an all-`false` triangular flag table is `false`. -/
theorem flags_false_of_mem {n : ℕ} (row : List Bool)
    (hrow : row ∈ (List.range (n + 1)).map fun i =>
      (List.range (i + 1)).map fun _ => (false : Bool))
    (b : Bool) (hb : b ∈ row) : b = false := by
  simp only [List.mem_map, List.mem_range] at hrow
  obtain ⟨a, -, ha⟩ := hrow
  subst ha
  simp only [List.mem_map] at hb
  obtain ⟨c, -, hc⟩ := hb
  exact hc.symm

/-- With `isAmerican = false` the pipeline's flag table is the all-`false`
triangle produced by `priceEuropean`. -/
theorem priceBinomialTree_euro_flags {α : Type} [LinearOrderedField α]
    (A : Analytic α) (params : MarketParams α) (hEuro : params.isAmerican = false) :
    (priceBinomialTree A params).earlyExercise
      = (List.range (params.N + 1)).map fun i =>
          (List.range (i + 1)).map fun _ => (false : Bool) := by
  simp [priceBinomialTree, hEuro, priceEuropean]

/-- Claim C1: European pricing fills step `N` with the terminal payoff, every
earlier node satisfies the discounted-expectation recurrence, the returned
root price is `optionTree[0][0]`, and every early-exercise flag in the result
is `false`. -/
theorem europeanBackwardInduction {α : Type} [LinearOrderedField α]
    (stockTree : List (List α)) (K p discount : α) (isCall : Bool)
    (N i j : ℕ) (A : Analytic α) (params : MarketParams α)
    (hi : i ≤ N) (hj : j ≤ i) (hEuro : params.isAmerican = false) :
    (i = N → tget (priceEuropean stockTree K p discount isCall N).optionTree 0 i j
        = payoff (tget stockTree 0 N j) K isCall)
    ∧ (i < N → tget (priceEuropean stockTree K p discount isCall N).optionTree 0 i j
        = discount
          * (p * tget (priceEuropean stockTree K p discount isCall N).optionTree 0
              (i + 1) (j + 1)
            + (1 - p) * tget (priceEuropean stockTree K p discount isCall N).optionTree 0
              (i + 1) j))
    ∧ (∀ row ∈ (priceEuropean stockTree K p discount isCall N).earlyExercise,
        ∀ b ∈ row, b = false)
    ∧ (priceBinomialTree A params).price = tget (priceBinomialTree A params).optionTree 0 0 0
    ∧ (∀ row ∈ (priceBinomialTree A params).earlyExercise, ∀ b ∈ row, b = false) := by
  refine ⟨?_, ?_, ?_, rfl, ?_⟩
  · intro hiN
    subst hiN
    rw [tget_priceEuropean stockTree K p discount isCall i i j le_rfl hj,
      Nat.sub_self]
    rfl
  · intro hiN
    rw [tget_priceEuropean stockTree K p discount isCall N i j hi hj,
      tget_priceEuropean stockTree K p discount isCall N (i + 1) (j + 1) hiN
        (Nat.succ_le_succ hj),
      tget_priceEuropean stockTree K p discount isCall N (i + 1) j hiN
        (Nat.le_succ_of_le hj)]
    have hm : N - i = (N - (i + 1)) + 1 := by omega
    rw [hm]
    rfl
  · intro row hrow b hb
    exact flags_false_of_mem row hrow b hb
  · intro row hrow b hb
    rw [priceBinomialTree_euro_flags A params hEuro] at hrow
    exact flags_false_of_mem row hrow b hb

/-- Witness instance of `europeanBackwardInduction`, instantiated: terminal payoff at node `(2, 2)`
of a concrete European lattice. -/
theorem europeanBackwardInduction_check :
    ((2 : ℕ) ≤ 2 ∧ (2 : ℕ) ≤ 2)
    ∧ tget (priceEuropean (buildStockTree (100 : ℚ) 2 (1 / 2) 2) 100 (1 / 2) 1 true 2).optionTree
        0 2 2
      = payoff (tget (buildStockTree (100 : ℚ) 2 (1 / 2) 2) 0 2 2) 100 true :=
  ⟨⟨by decide, by decide⟩,
    (europeanBackwardInduction (buildStockTree (100 : ℚ) 2 (1 / 2) 2) 100 (1 / 2) 1 true
      2 2 2 ⟨id, id⟩ ⟨100, 100, 0, 0, 1, 2, true, false, false, 1, 1⟩
      (by decide) (by decide) rfl).1 rfl⟩

/-- Claim C2: at every interior American node the option value is the
exercise payoff with flag `true` exactly when exercise strictly beats the
hold value, otherwise the hold value with flag `false`; a tie resolves to
holding; terminal nodes always get the payoff with flag `false`. -/
theorem americanNodeRule {α : Type} [LinearOrderedField α]
    (stockTree : List (List α)) (K p discount : α) (isCall : Bool)
    (N i j : ℕ) (hi : i ≤ N) (hj : j ≤ i) :
    (i < N →
      ((payoff (tget stockTree 0 i j) K isCall
          > discount
            * (p * tget (priceAmerican stockTree K p discount isCall N).optionTree 0
                (i + 1) (j + 1)
              + (1 - p) * tget (priceAmerican stockTree K p discount isCall N).optionTree 0
                (i + 1) j) →
        tget (priceAmerican stockTree K p discount isCall N).optionTree 0 i j
            = payoff (tget stockTree 0 i j) K isCall
          ∧ tget (priceAmerican stockTree K p discount isCall N).earlyExercise false i j
            = true)
      ∧ (¬ payoff (tget stockTree 0 i j) K isCall
          > discount
            * (p * tget (priceAmerican stockTree K p discount isCall N).optionTree 0
                (i + 1) (j + 1)
              + (1 - p) * tget (priceAmerican stockTree K p discount isCall N).optionTree 0
                (i + 1) j) →
        tget (priceAmerican stockTree K p discount isCall N).optionTree 0 i j
            = discount
              * (p * tget (priceAmerican stockTree K p discount isCall N).optionTree 0
                  (i + 1) (j + 1)
                + (1 - p) * tget (priceAmerican stockTree K p discount isCall N).optionTree 0
                  (i + 1) j)
          ∧ tget (priceAmerican stockTree K p discount isCall N).earlyExercise false i j
            = false)
      ∧ (payoff (tget stockTree 0 i j) K isCall
          = discount
            * (p * tget (priceAmerican stockTree K p discount isCall N).optionTree 0
                (i + 1) (j + 1)
              + (1 - p) * tget (priceAmerican stockTree K p discount isCall N).optionTree 0
                (i + 1) j) →
        tget (priceAmerican stockTree K p discount isCall N).optionTree 0 i j
            = discount
              * (p * tget (priceAmerican stockTree K p discount isCall N).optionTree 0
                  (i + 1) (j + 1)
                + (1 - p) * tget (priceAmerican stockTree K p discount isCall N).optionTree 0
                  (i + 1) j)
          ∧ tget (priceAmerican stockTree K p discount isCall N).earlyExercise false i j
            = false)))
    ∧ (i = N →
        tget (priceAmerican stockTree K p discount isCall N).optionTree 0 i j
            = payoff (tget stockTree 0 N j) K isCall
          ∧ tget (priceAmerican stockTree K p discount isCall N).earlyExercise false i j
            = false) := by
  constructor
  · intro hiN
    have hm : N - i = (N - (i + 1)) + 1 := by omega
    have hstep : N - ((N - (i + 1)) + 1) = i := by omega
    rw [tget_priceAmerican stockTree K p discount isCall N i j hi hj,
      tget_priceAmerican stockTree K p discount isCall N (i + 1) (j + 1) hiN
        (Nat.succ_le_succ hj),
      tget_priceAmerican stockTree K p discount isCall N (i + 1) j hiN
        (Nat.le_succ_of_le hj),
      tget_priceAmericanFlag stockTree K p discount isCall N i j hi hj,
      hm, amerValAux, amerFlagAux, hstep]
    refine ⟨?_, ?_, ?_⟩
    · intro hgt
      rw [if_pos hgt, decide_eq_true_eq]
      exact ⟨rfl, hgt⟩
    · intro hle
      rw [if_neg hle]
      refine ⟨rfl, ?_⟩
      simpa using hle
    · intro heq
      have hle : ¬ payoff (tget stockTree 0 i j) K isCall
          > discount
            * (p * amerValAux (tget stockTree 0) K p discount isCall N (N - (i + 1)) (j + 1)
              + (1 - p) * amerValAux (tget stockTree 0) K p discount isCall N (N - (i + 1)) j) := by
        rw [heq]
        exact lt_irrefl _
      rw [if_neg hle]
      refine ⟨rfl, ?_⟩
      simpa using hle
  · intro hiN
    subst hiN
    rw [tget_priceAmerican stockTree K p discount isCall i i j le_rfl hj,
      tget_priceAmericanFlag stockTree K p discount isCall i i j le_rfl hj,
      Nat.sub_self]
    exact ⟨rfl, rfl⟩

/-- Witness instance of `americanNodeRule`, instantiated at the terminal row of a concrete
American lattice. -/
theorem americanNodeRule_check :
    ((2 : ℕ) ≤ 2 ∧ (1 : ℕ) ≤ 2)
    ∧ tget (priceAmerican (buildStockTree (100 : ℚ) 2 (1 / 2) 2) 100 (1 / 2) 1 false 2).optionTree
        0 2 1
      = payoff (tget (buildStockTree (100 : ℚ) 2 (1 / 2) 2) 0 2 1) 100 false :=
  ⟨⟨by decide, by decide⟩,
    ((americanNodeRule (buildStockTree (100 : ℚ) 2 (1 / 2) 2) 100 (1 / 2) 1 false 2 2 1
      (by decide) (by decide)).2 rfl).1⟩

/-- Claim C10: every American node value dominates the immediate exercise
payoff at that node, with equality at flagged and terminal nodes, for every
`p` and `discount` (no range restriction). -/
theorem americanDominatesExercise {α : Type} [LinearOrderedField α]
    (stockTree : List (List α)) (K p discount : α) (isCall : Bool)
    (N i j : ℕ) (hi : i ≤ N) (hj : j ≤ i) :
    payoff (tget stockTree 0 i j) K isCall
      ≤ tget (priceAmerican stockTree K p discount isCall N).optionTree 0 i j
    ∧ (tget (priceAmerican stockTree K p discount isCall N).earlyExercise false i j = true →
        tget (priceAmerican stockTree K p discount isCall N).optionTree 0 i j
          = payoff (tget stockTree 0 i j) K isCall)
    ∧ (i = N →
        tget (priceAmerican stockTree K p discount isCall N).optionTree 0 i j
          = payoff (tget stockTree 0 i j) K isCall) := by
  rw [tget_priceAmerican stockTree K p discount isCall N i j hi hj,
    tget_priceAmericanFlag stockTree K p discount isCall N i j hi hj]
  rcases Nat.lt_or_ge i N with hiN | hiN
  · have hm : N - i = (N - (i + 1)) + 1 := by omega
    have hstep : N - ((N - (i + 1)) + 1) = i := by omega
    rw [hm, amerValAux, amerFlagAux, hstep]
    by_cases hgt : payoff (tget stockTree 0 i j) K isCall
        > discount
          * (p * amerValAux (tget stockTree 0) K p discount isCall N (N - (i + 1)) (j + 1)
            + (1 - p) * amerValAux (tget stockTree 0) K p discount isCall N (N - (i + 1)) j)
    · rw [if_pos hgt]
      exact ⟨le_rfl, fun _ => rfl, fun hEq => absurd hEq (by omega)⟩
    · rw [if_neg hgt]
      refine ⟨le_of_not_lt hgt, ?_, fun hEq => absurd hEq (by omega)⟩
      intro hflag
      rw [decide_eq_true_eq] at hflag
      exact absurd hflag hgt
  · have hiN2 : i = N := le_antisymm hi hiN
    subst hiN2
    rw [Nat.sub_self]
    exact ⟨le_rfl, fun _ => rfl, fun _ => rfl⟩

/-- Witness instance of `americanDominatesExercise`, instantiated at an interior node of a
concrete American lattice. -/
theorem americanDominatesExercise_check :
    ((1 : ℕ) ≤ 2 ∧ (0 : ℕ) ≤ 1)
    ∧ payoff (tget (buildStockTree (100 : ℚ) 2 (1 / 2) 2) 0 1 0) 100 false
      ≤ tget (priceAmerican (buildStockTree (100 : ℚ) 2 (1 / 2) 2) 100 (1 / 2) 1 false 2).optionTree
          0 1 0 :=
  ⟨⟨by decide, by decide⟩,
    (americanDominatesExercise (buildStockTree (100 : ℚ) 2 (1 / 2) 2) 100 (1 / 2) 1 false 2 1 0
      (by decide) (by decide)).1⟩

/-- With `0 ≤ p ≤ 1` and a nonnegative discount factor, every American node
value dominates the European node value (same lattice position). -/
theorem euroValAux_le_amerValAux {α : Type} [LinearOrderedField α]
    (stk : ℕ → ℕ → α) (K p discount : α) (isCall : Bool) (N : ℕ)
    (hp0 : 0 ≤ p) (hp1 : p ≤ 1) (hd : 0 ≤ discount) :
    ∀ m j, euroValAux stk K p discount isCall N m j
      ≤ amerValAux stk K p discount isCall N m j := by
  intro m
  induction m with
  | zero => intro j; exact le_rfl
  | succ k ih =>
      intro j
      have h1 : p * euroValAux stk K p discount isCall N k (j + 1)
          ≤ p * amerValAux stk K p discount isCall N k (j + 1) :=
        mul_le_mul_of_nonneg_left (ih (j + 1)) hp0
      have h2 : (1 - p) * euroValAux stk K p discount isCall N k j
          ≤ (1 - p) * amerValAux stk K p discount isCall N k j :=
        mul_le_mul_of_nonneg_left (ih j) (by linarith)
      have hhold : euroValAux stk K p discount isCall N (k + 1) j
          ≤ discount * (p * amerValAux stk K p discount isCall N k (j + 1)
            + (1 - p) * amerValAux stk K p discount isCall N k j) := by
        rw [euroValAux]
        exact mul_le_mul_of_nonneg_left (add_le_add h1 h2) hd
      simp only [amerValAux]
      split
      · next hgt => exact le_trans hhold (le_of_lt hgt)
      · next _ => exact hhold

/-- Root comparison between the two pricing functions. -/
theorem root_price_le {α : Type} [LinearOrderedField α] (stockTree : List (List α))
    (K p discount : α) (isCall : Bool) (N : ℕ)
    (hp0 : 0 ≤ p) (hp1 : p ≤ 1) (hd : 0 ≤ discount) :
    tget (priceEuropean stockTree K p discount isCall N).optionTree 0 0 0
      ≤ tget (priceAmerican stockTree K p discount isCall N).optionTree 0 0 0 := by
  rw [tget_priceEuropean stockTree K p discount isCall N 0 0 (Nat.zero_le N) le_rfl,
    tget_priceAmerican stockTree K p discount isCall N 0 0 (Nat.zero_le N) le_rfl]
  exact euroValAux_le_amerValAux (tget stockTree 0) K p discount isCall N hp0 hp1 hd
    (N - 0) 0

/-- The pipeline's discount factor is always the exponential of `-(r*dt)`,
whichever branch derives `u` and `d`. -/
theorem priceBinomialTree_discount (params : MarketParams ℝ) :
    (priceBinomialTree (⟨Real.exp, Real.sqrt⟩ : Analytic ℝ) params).crr.discount
      = Real.exp (-(params.r * (params.T / (params.N : ℝ)))) := by
  by_cases hcu : params.isCustomUD <;>
    simp [priceBinomialTree, calculateCRRParams, hcu]

/-- Claim C3 (amended): whenever the derived risk-neutral probability lies in
`[0, 1]`, the American root price dominates the European root price for the
same market parameters. -/
theorem americanDominatesEuropean (params : MarketParams ℝ)
    (hp0 : 0 ≤ (priceBinomialTree (⟨Real.exp, Real.sqrt⟩ : Analytic ℝ) params).crr.p)
    (hp1 : (priceBinomialTree (⟨Real.exp, Real.sqrt⟩ : Analytic ℝ) params).crr.p ≤ 1) :
    (priceBinomialTree (⟨Real.exp, Real.sqrt⟩ : Analytic ℝ)
        { params with isAmerican := false }).price
      ≤ (priceBinomialTree (⟨Real.exp, Real.sqrt⟩ : Analytic ℝ)
        { params with isAmerican := true }).price := by
  have hd : (0 : ℝ)
      ≤ (priceBinomialTree (⟨Real.exp, Real.sqrt⟩ : Analytic ℝ) params).crr.discount := by
    rw [priceBinomialTree_discount]
    exact (Real.exp_pos _).le
  cases params with
  | mk S K r sigma T N isCall isAmerican isCustomUD customU customD =>
      exact root_price_le _ _ _ _ _ _ hp0 hp1 hd

/-- Claim C3 fails as stated: with custom factors `u = 9/10`, `d = 1/2` and
`r = 0` the derived probability is `p = 5/4 > 1`, and for the put with
`S = 100`, `K = 40`, `T = 1`, `N = 2` the American root price `0` is strictly
below the European root price `15/16`. -/
theorem americanBelowEuropean_cex :
    (priceBinomialTree (⟨Real.exp, Real.sqrt⟩ : Analytic ℝ)
        ⟨100, 40, 0, 1 / 5, 1, 2, false, true, true, 9 / 10, 1 / 2⟩).price = 0
    ∧ (priceBinomialTree (⟨Real.exp, Real.sqrt⟩ : Analytic ℝ)
        ⟨100, 40, 0, 1 / 5, 1, 2, false, false, true, 9 / 10, 1 / 2⟩).price = 15 / 16
    ∧ (priceBinomialTree (⟨Real.exp, Real.sqrt⟩ : Analytic ℝ)
        ⟨100, 40, 0, 1 / 5, 1, 2, false, true, true, 9 / 10, 1 / 2⟩).price
      < (priceBinomialTree (⟨Real.exp, Real.sqrt⟩ : Analytic ℝ)
        ⟨100, 40, 0, 1 / 5, 1, 2, false, false, true, 9 / 10, 1 / 2⟩).price := by
  norm_num [priceBinomialTree, calculateCRRParams, buildStockTree, priceEuropean,
    priceAmerican, euroValAux, amerValAux, payoff, tget, List.range_succ, max_def]

/-- Witness instance of `americanDominatesEuropean`, instantiated at parameters whose derived
probability is `1/2`. -/
theorem americanDominatesEuropean_check :
    ((0 : ℝ) ≤ (priceBinomialTree (⟨Real.exp, Real.sqrt⟩ : Analytic ℝ)
        ⟨100, 100, 0, 1 / 5, 1, 1, true, false, true, 3 / 2, 1 / 2⟩).crr.p
      ∧ (priceBinomialTree (⟨Real.exp, Real.sqrt⟩ : Analytic ℝ)
        ⟨100, 100, 0, 1 / 5, 1, 1, true, false, true, 3 / 2, 1 / 2⟩).crr.p ≤ 1)
    ∧ (priceBinomialTree (⟨Real.exp, Real.sqrt⟩ : Analytic ℝ)
        ⟨100, 100, 0, 1 / 5, 1, 1, true, false, true, 3 / 2, 1 / 2⟩).price
      ≤ (priceBinomialTree (⟨Real.exp, Real.sqrt⟩ : Analytic ℝ)
        ⟨100, 100, 0, 1 / 5, 1, 1, true, true, true, 3 / 2, 1 / 2⟩).price :=
  ⟨⟨by norm_num [priceBinomialTree, calculateCRRParams],
    by norm_num [priceBinomialTree, calculateCRRParams]⟩,
    americanDominatesEuropean ⟨100, 100, 0, 1 / 5, 1, 1, true, false, true, 3 / 2, 1 / 2⟩
      (by norm_num [priceBinomialTree, calculateCRRParams])
      (by norm_num [priceBinomialTree, calculateCRRParams])⟩

/-- Claim C7 (amended): for `N = 0` both Greeks are `0`; for `N = 1` Gamma is
`0`, while Delta is computed from the step-1 nodes (the guard in
`calculateDelta` only triggers below two lattice levels). -/
theorem degenerateGreeks {α : Type} [LinearOrderedField α] (A : Analytic α)
    (params : MarketParams α) :
    (params.N = 0 →
      (priceBinomialTree A params).delta = 0 ∧ (priceBinomialTree A params).gamma = 0)
    ∧ (params.N = 1 → (priceBinomialTree A params).gamma = 0) := by
  refine ⟨fun hN => ⟨?_, ?_⟩, fun hN => ?_⟩ <;>
    simp [priceBinomialTree, calculateDelta, calculateGamma, buildStockTree, hN]

/-- Witness instance of `degenerateGreeks`, instantiated at `N = 0`. -/
theorem degenerateGreeks_check :
    ((0 : ℕ) = 0)
    ∧ (priceBinomialTree (⟨id, id⟩ : Analytic ℚ)
        ⟨100, 100, 0, 1 / 5, 1, 0, true, false, false, 1, 1⟩).delta = 0
    ∧ (priceBinomialTree (⟨id, id⟩ : Analytic ℚ)
        ⟨100, 100, 0, 1 / 5, 1, 0, true, false, false, 1, 1⟩).gamma = 0 :=
  ⟨rfl,
    (degenerateGreeks (⟨id, id⟩ : Analytic ℚ)
      ⟨100, 100, 0, 1 / 5, 1, 0, true, false, false, 1, 1⟩).1 rfl⟩

/-- Claim C7 fails as stated for `N = 1`: with custom factors `3/2`, `1/2`
and `r = 0`, the at-the-money call on a one-step lattice has Delta `1/2`,
not `0`. -/
theorem degenerateGreeks_cex :
    (priceBinomialTree (⟨Real.exp, Real.sqrt⟩ : Analytic ℝ)
        ⟨100, 100, 0, 1 / 5, 1, 1, true, false, true, 3 / 2, 1 / 2⟩).delta = 1 / 2
    ∧ (priceBinomialTree (⟨Real.exp, Real.sqrt⟩ : Analytic ℝ)
        ⟨100, 100, 0, 1 / 5, 1, 1, true, false, true, 3 / 2, 1 / 2⟩).delta ≠ 0 := by
  norm_num [priceBinomialTree, calculateCRRParams, buildStockTree, priceEuropean,
    euroValAux, payoff, tget, calculateDelta, List.range_succ, max_def]

/-- Claim C4: the CRR derivation over the reals computes `dt = T/N`, uses the
custom factors exactly when both are supplied and the volatility-derived
factors `u = exp(sigma*sqrt(dt))`, `d = 1/u` otherwise, and in both cases
`p = (exp(r*dt) - d)/(u - d)` and `discount = exp(-r*dt)`. -/
theorem crrDerivation (S K r sigma T : ℝ) (N : ℕ) (customU customD : Option ℝ) :
    (calculateCRRParams (⟨Real.exp, Real.sqrt⟩ : Analytic ℝ)
        S K r sigma T N customU customD).dt = T / (N : ℝ)
    ∧ (∀ cu cd, customU = some cu → customD = some cd →
        (calculateCRRParams (⟨Real.exp, Real.sqrt⟩ : Analytic ℝ)
          S K r sigma T N customU customD).u = cu
        ∧ (calculateCRRParams (⟨Real.exp, Real.sqrt⟩ : Analytic ℝ)
          S K r sigma T N customU customD).d = cd)
    ∧ (customU = none ∨ customD = none →
        (calculateCRRParams (⟨Real.exp, Real.sqrt⟩ : Analytic ℝ)
          S K r sigma T N customU customD).u
            = Real.exp (sigma * Real.sqrt (T / (N : ℝ)))
        ∧ (calculateCRRParams (⟨Real.exp, Real.sqrt⟩ : Analytic ℝ)
          S K r sigma T N customU customD).d
            = 1 / Real.exp (sigma * Real.sqrt (T / (N : ℝ))))
    ∧ (calculateCRRParams (⟨Real.exp, Real.sqrt⟩ : Analytic ℝ)
        S K r sigma T N customU customD).p
      = (Real.exp (r * (T / (N : ℝ)))
          - (calculateCRRParams (⟨Real.exp, Real.sqrt⟩ : Analytic ℝ)
            S K r sigma T N customU customD).d)
        / ((calculateCRRParams (⟨Real.exp, Real.sqrt⟩ : Analytic ℝ)
            S K r sigma T N customU customD).u
          - (calculateCRRParams (⟨Real.exp, Real.sqrt⟩ : Analytic ℝ)
            S K r sigma T N customU customD).d)
    ∧ (calculateCRRParams (⟨Real.exp, Real.sqrt⟩ : Analytic ℝ)
        S K r sigma T N customU customD).discount
      = Real.exp (-(r * (T / (N : ℝ)))) := by
  refine ⟨rfl, ?_, ?_, rfl, rfl⟩
  · intro cu cd hcu hcd
    subst hcu
    subst hcd
    exact ⟨rfl, rfl⟩
  · intro hnone
    cases customU with
    | none => exact ⟨rfl, rfl⟩
    | some cu =>
        cases customD with
        | none => exact ⟨rfl, rfl⟩
        | some cd =>
            rcases hnone with h | h <;> exact absurd h (by simp)

/-- Witness instance of `crrDerivation`, instantiated with no custom factors. -/
theorem crrDerivation_check :
    ((none : Option ℝ) = none ∨ (none : Option ℝ) = none)
    ∧ (calculateCRRParams (⟨Real.exp, Real.sqrt⟩ : Analytic ℝ)
        100 100 (1 / 20) (1 / 5) 1 2 none none).u
      = Real.exp ((1 / 5) * Real.sqrt (1 / (2 : ℕ)))
    ∧ (calculateCRRParams (⟨Real.exp, Real.sqrt⟩ : Analytic ℝ)
        100 100 (1 / 20) (1 / 5) 1 2 none none).d
      = 1 / Real.exp ((1 / 5) * Real.sqrt (1 / (2 : ℕ))) :=
  ⟨Or.inl rfl,
    (crrDerivation 100 100 (1 / 20) (1 / 5) 1 2 none none).2.2.1 (Or.inl rfl)⟩

/-- Claim C8: whenever the factors are derived from volatility (no custom
override), the pipeline's factors satisfy `u * d = 1` exactly (over ℝ, since
`exp` never vanishes). -/
theorem derivedFactorsRecombine (params : MarketParams ℝ)
    (hcu : params.isCustomUD = false) (hN : 1 ≤ params.N) :
    (priceBinomialTree (⟨Real.exp, Real.sqrt⟩ : Analytic ℝ) params).crr.u
      * (priceBinomialTree (⟨Real.exp, Real.sqrt⟩ : Analytic ℝ) params).crr.d = 1 := by
  simp [priceBinomialTree, calculateCRRParams, hcu]

/-- Witness instance of `derivedFactorsRecombine`, instantiated at standard market parameters. -/
theorem derivedFactorsRecombine_check :
    ((false = false) ∧ (1 : ℕ) ≤ 2)
    ∧ (priceBinomialTree (⟨Real.exp, Real.sqrt⟩ : Analytic ℝ)
        ⟨100, 100, 1 / 20, 1 / 5, 1, 2, true, false, false, 11 / 10, 9 / 10⟩).crr.u
      * (priceBinomialTree (⟨Real.exp, Real.sqrt⟩ : Analytic ℝ)
        ⟨100, 100, 1 / 20, 1 / 5, 1, 2, true, false, false, 11 / 10, 9 / 10⟩).crr.d = 1 :=
  ⟨⟨rfl, by decide⟩,
    derivedFactorsRecombine
      ⟨100, 100, 1 / 20, 1 / 5, 1, 2, true, false, false, 11 / 10, 9 / 10⟩ rfl (by decide)⟩

/-- Claim C6: the early-exercise list has one record per flagged node with
step below `N` (records carry that node's step, state, stock price and
option value; the terminal step is never scanned), every flagged interior
node produces a record, the list is strictly ordered by step and then state
(hence contains at most one record per node), and the pipeline returns the
empty list for European contracts. -/
theorem earlyExerciseCollection {α : Type} [LinearOrderedField α]
    (stockTree optionTree : List (List α)) (earlyExercise : List (List Bool))
    (N i j : ℕ) (A : Analytic α) (params : MarketParams α)
    (hiN : i < N) (hj : j ≤ i) (hEuro : params.isAmerican = false) :
    (∀ rec ∈ getEarlyExerciseNodes stockTree optionTree earlyExercise N,
      rec.step < N ∧ rec.state ≤ rec.step
        ∧ tget earlyExercise false rec.step rec.state = true
        ∧ rec.stockPrice = tget stockTree 0 rec.step rec.state
        ∧ rec.optionValue = tget optionTree 0 rec.step rec.state)
    ∧ (tget earlyExercise false i j = true →
        (⟨i, j, tget stockTree 0 i j, tget optionTree 0 i j⟩ : EarlyExerciseRecord α)
          ∈ getEarlyExerciseNodes stockTree optionTree earlyExercise N)
    ∧ (getEarlyExerciseNodes stockTree optionTree earlyExercise N).Pairwise
        (fun a b => a.step < b.step ∨ (a.step = b.step ∧ a.state < b.state))
    ∧ (priceBinomialTree A params).earlyExerciseNodes = [] := by
  refine ⟨?_, ?_, ?_, ?_⟩
  · intro rec hrec
    simp only [getEarlyExerciseNodes, List.mem_flatten, List.mem_map, List.mem_range,
      List.mem_filter] at hrec
    obtain ⟨l, ⟨a, ha, hl⟩, hrecl⟩ := hrec
    rw [← hl] at hrecl
    simp only [List.mem_map, List.mem_filter, List.mem_range] at hrecl
    obtain ⟨b, ⟨hb, hflag⟩, hrec⟩ := hrecl
    subst hrec
    exact ⟨ha, Nat.lt_succ_iff.mp hb, hflag, rfl, rfl⟩
  · intro hflag
    simp only [getEarlyExerciseNodes, List.mem_flatten, List.mem_map, List.mem_range]
    refine ⟨((List.range (i + 1)).filter fun b => tget earlyExercise false i b).map
      fun b => ⟨i, b, tget stockTree 0 i b, tget optionTree 0 i b⟩, ⟨i, hiN, rfl⟩, ?_⟩
    simp only [List.mem_map, List.mem_filter, List.mem_range]
    exact ⟨j, ⟨Nat.lt_succ_of_le hj, hflag⟩, rfl⟩
  · rw [getEarlyExerciseNodes, List.pairwise_flatten]
    constructor
    · intro l hl
      simp only [List.mem_map, List.mem_range] at hl
      obtain ⟨a, ha, rfl⟩ := hl
      rw [List.pairwise_map]
      refine List.Pairwise.imp ?_
        (List.Pairwise.filter _ (List.pairwise_lt_range (a + 1)))
      intro x y hxy
      exact Or.inr ⟨rfl, hxy⟩
    · rw [List.pairwise_map]
      refine List.Pairwise.imp ?_ (List.pairwise_lt_range N)
      intro a b hab x hx y hy
      simp only [List.mem_map, List.mem_filter, List.mem_range] at hx hy
      obtain ⟨jx, -, rfl⟩ := hx
      obtain ⟨jy, -, rfl⟩ := hy
      exact Or.inl hab
  · simp [priceBinomialTree, hEuro]

/-- Witness instance of `earlyExerciseCollection`, instantiated: the flagged root of a concrete
one-step lattice is reported. -/
theorem earlyExerciseCollection_check :
    ((0 : ℕ) < 1 ∧ tget [[true], [false, false]] false 0 0 = true)
    ∧ (⟨0, 0, tget [[(100 : ℚ)], [150, 50]] 0 0 0, tget [[(5 : ℚ)], [0, 10]] 0 0 0⟩
        : EarlyExerciseRecord ℚ)
      ∈ getEarlyExerciseNodes [[(100 : ℚ)], [150, 50]] [[(5 : ℚ)], [0, 10]]
        [[true], [false, false]] 1 :=
  ⟨⟨by decide, rfl⟩,
    (earlyExerciseCollection [[(100 : ℚ)], [150, 50]] [[(5 : ℚ)], [0, 10]]
      [[true], [false, false]] 1 0 0 (⟨id, id⟩ : Analytic ℚ)
      ⟨100, 100, 0, 1 / 5, 1, 1, true, false, false, 1, 1⟩
      (by decide) (by decide) rfl).2.1 rfl⟩

end Binomial
